import Mathlib

/-!
# Verification of the ray-tracer core

A shallow embedding of the ray tracer's core data model and operations
(tuples, 4x4 matrices with cofactor inversion, rays, spheres, intersection
collections, Phong lighting, world shading, camera rays), translated from
the Rust sources, together with theorems settling the specification claims.

`f64` values are idealised as real numbers; a Rust panic (an `expect` /
`unwrap` that can fail) is embedded as an `Option` returning `none`;
fallible operations returning `Result` are embedded as `Except`.
-/

noncomputable section

/-- The fixed epsilon used by the approximate equality comparisons
(`tuple.rs`, `color.rs`: `1e-5`; `matrix.rs` writes it `0.00001`). -/
def EPSILON : ℝ := 1e-5

/-! ## Tuple algebra (`tuple.rs`)

The Rust `Point` and `Vector` newtypes are compile-time tags around `Tuple`
(w = 1 for points, w = 0 for vectors); their arithmetic delegates to `Tuple`
arithmetic followed by a `try_into().unwrap()` that only re-checks the
w-component.  We embed the underlying `Tuple` data and model the checked
conversions explicitly where a claim's code path performs them. -/

structure Tuple where
  x : ℝ
  y : ℝ
  z : ℝ
  w : ℝ


namespace Tuple

/-- `Tuple::new` -/
def new (x y z w : ℝ) : Tuple := ⟨x, y, z, w⟩

/-- `Tuple::zero` -/
def zero : Tuple := ⟨0, 0, 0, 0⟩

/-- `Tuple::is_point`: `(w - 1.0).abs() < EPSILON` -/
def is_point (t : Tuple) : Prop := |t.w - 1| < EPSILON

/-- `Tuple::is_vector`: `w.abs() < EPSILON` -/
def is_vector (t : Tuple) : Prop := |t.w| < EPSILON

/-- `Tuple::magnitude` -/
def magnitude (t : Tuple) : ℝ := Real.sqrt (t.x ^ 2 + t.y ^ 2 + t.z ^ 2 + t.w ^ 2)

/-- `Tuple::dot` -/
def dot (a b : Tuple) : ℝ := a.x * b.x + a.y * b.y + a.z * b.z + a.w * b.w

/-- `impl Add for Tuple` -/
def add (a b : Tuple) : Tuple := ⟨a.x + b.x, a.y + b.y, a.z + b.z, a.w + b.w⟩

instance : Add Tuple := ⟨add⟩

/-- `impl Sub for Tuple` -/
def sub (a b : Tuple) : Tuple := ⟨a.x - b.x, a.y - b.y, a.z - b.z, a.w - b.w⟩

instance : Sub Tuple := ⟨sub⟩

/-- `impl Neg for Tuple`: `Tuple::zero() - self` -/
def neg (a : Tuple) : Tuple := zero - a

instance : Neg Tuple := ⟨neg⟩

/-- `impl Mul<f64> for Tuple` -/
def smul (a : Tuple) (s : ℝ) : Tuple := ⟨a.x * s, a.y * s, a.z * s, a.w * s⟩

/-- `impl Div<f64> for Tuple` -/
def sdiv (a : Tuple) (s : ℝ) : Tuple := ⟨a.x / s, a.y / s, a.z / s, a.w / s⟩

/-- `Tuple::normalize`: `self / self.magnitude()` -/
def normalize (t : Tuple) : Tuple := t.sdiv t.magnitude

/-- `PartialEq for Tuple`: componentwise `|a - b| < EPSILON` (strict). -/
def approxEq (a b : Tuple) : Prop :=
  |a.x - b.x| < EPSILON ∧ |a.y - b.y| < EPSILON ∧
    |a.z - b.z| < EPSILON ∧ |a.w - b.w| < EPSILON

/-- `Vector::reflect`: `self - normal * 2.0 * self.dot(normal)`
(the `try_into().unwrap()` re-checks only the w-tag). -/
def reflect (v n : Tuple) : Tuple := v - n.smul (2 * v.dot n)

end Tuple

/-- `Point::new(x, y, z)`: a tuple with w = 1. -/
def point (x y z : ℝ) : Tuple := ⟨x, y, z, 1⟩

/-- `Vector::new(x, y, z)`: a tuple with w = 0. -/
def vector (x y z : ℝ) : Tuple := ⟨x, y, z, 0⟩

/-- `TryFrom<Tuple> for Point` followed by `unwrap()`:
succeeds (with the tuple itself) iff `is_point` holds, else panics. -/
def toPointChecked (t : Tuple) : Option Tuple :=
  if |t.w - 1| < EPSILON then some t else none

/-- `TryFrom<Tuple> for Vector` followed by `unwrap()`:
succeeds iff `is_vector` holds, else panics. -/
def toVectorChecked (t : Tuple) : Option Tuple :=
  if |t.w| < EPSILON then some t else none

/-! ## Color (`color.rs`) -/

structure Color where
  red : ℝ
  green : ℝ
  blue : ℝ


namespace Color

/-- `Color::new` -/
def new (r g b : ℝ) : Color := ⟨r, g, b⟩

/-- `impl Add for Color` -/
def add (a b : Color) : Color := ⟨a.red + b.red, a.green + b.green, a.blue + b.blue⟩

instance : Add Color := ⟨add⟩

/-- `impl Mul<f64> for Color` -/
def smul (a : Color) (s : ℝ) : Color := ⟨a.red * s, a.green * s, a.blue * s⟩

/-- `impl Mul<Color> for Color` (componentwise, Hadamard) -/
def hmul (a b : Color) : Color := ⟨a.red * b.red, a.green * b.green, a.blue * b.blue⟩

/-- `PartialEq for Color`: componentwise `|a - b| < EPSILON` (strict). -/
def approxEq (a b : Color) : Prop :=
  |a.red - b.red| < EPSILON ∧ |a.green - b.green| < EPSILON ∧ |a.blue - b.blue| < EPSILON

end Color

/-- `pub const BLACK` (`color.rs` via `world.rs` usage): the zero color. -/
def BLACK : Color := ⟨0, 0, 0⟩

/-! ## Matrices (`matrix.rs`)

The source type `Matrix<W, H>` is a dense array of `f64`; only the square
sizes 2, 3, 4 participate in the determinant/cofactor recursion.  We embed
4x4, 3x3 and 2x2 matrices as Mathlib function matrices over `ℝ` and
translate each operation. -/

abbrev Mat4 := Matrix (Fin 4) (Fin 4) ℝ
abbrev Mat3 := Matrix (Fin 3) (Fin 3) ℝ
abbrev Mat2 := Matrix (Fin 2) (Fin 2) ℝ

/-- `SquareMatrix::identity` -/
def identity4 : Mat4 := Matrix.of fun i j => if j = i then (1 : ℝ) else 0

/-- `Matrix::transpose` -/
def transpose4 (m : Mat4) : Mat4 := Matrix.of fun i j => m j i

/-- `impl Mul<Matrix> for Matrix`: `out[y][x] = Σ_i lhs[y][i] * rhs[i][x]` -/
def matMul (a b : Mat4) : Mat4 := Matrix.of fun y x => ∑ i : Fin 4, a y i * b i x

/-- `impl Mul<f64> for Matrix` -/
def matSMul (m : Mat4) (s : ℝ) : Mat4 := Matrix.of fun i j => m i j * s

/-- `impl Div<f64> for Matrix`: `self * rhs.recip()` -/
def matSDiv (m : Mat4) (s : ℝ) : Mat4 := matSMul m s⁻¹

/-- `impl Mul<T> for &SquareMatrix<4>` (matrix applied to a tuple):
`out[y] = data[y][0]*x + data[y][1]*y + data[y][2]*z + data[y][3]*w` -/
def mulTuple (m : Mat4) (t : Tuple) : Tuple :=
  ⟨m 0 0 * t.x + m 0 1 * t.y + m 0 2 * t.z + m 0 3 * t.w,
   m 1 0 * t.x + m 1 1 * t.y + m 1 2 * t.z + m 1 3 * t.w,
   m 2 0 * t.x + m 2 1 * t.y + m 2 2 * t.z + m 2 3 * t.w,
   m 3 0 * t.x + m 3 1 * t.y + m 3 2 * t.z + m 3 3 * t.w⟩

/-- `SquareMatrix<2>::determinant` -/
def det2 (m : Mat2) : ℝ := m 0 0 * m 1 1 - m 0 1 * m 1 0

/-- `SquareMatrix<3>::submatrix`: drop row `r` and column `c`, keeping order. -/
def submatrix3 (m : Mat3) (r c : Fin 3) : Mat2 :=
  Matrix.of fun i j => m (r.succAbove i) (c.succAbove j)

/-- `SquareMatrix<3>::minor` -/
def minor3 (m : Mat3) (r c : Fin 3) : ℝ := det2 (submatrix3 m r c)

/-- `SquareMatrix<3>::cofactor`: minor with alternating sign by (row+col) parity. -/
def cofactor3 (m : Mat3) (r c : Fin 3) : ℝ :=
  minor3 m r c * if ((r : ℕ) + (c : ℕ)) % 2 = 1 then -1 else 1

/-- `SquareMatrix<3>::determinant`: cofactor expansion along row 0. -/
def det3 (m : Mat3) : ℝ := ∑ i : Fin 3, m 0 i * cofactor3 m 0 i

/-- `SquareMatrix<4>::submatrix` -/
def submatrix4 (m : Mat4) (r c : Fin 4) : Mat3 :=
  Matrix.of fun i j => m (r.succAbove i) (c.succAbove j)

/-- `SquareMatrix<4>::minor` -/
def minor4 (m : Mat4) (r c : Fin 4) : ℝ := det3 (submatrix4 m r c)

/-- `SquareMatrix<4>::cofactor` -/
def cofactor4 (m : Mat4) (r c : Fin 4) : ℝ :=
  minor4 m r c * if ((r : ℕ) + (c : ℕ)) % 2 = 1 then -1 else 1

/-- `SquareMatrix<4>::determinant`: cofactor expansion along row 0. -/
def det4 (m : Mat4) : ℝ := ∑ i : Fin 4, m 0 i * cofactor4 m 0 i

/-- `SquareMatrix<4>::invertible`: `determinant != 0` -/
def invertible4 (m : Mat4) : Prop := det4 m ≠ 0

/-- `SquareMatrix<4>::inverse`: `Err("matrix not invertible")` when the
determinant is zero, otherwise the transposed cofactor matrix divided by the
determinant. -/
def inverse4 (m : Mat4) : Except String Mat4 :=
  if det4 m = 0 then .error "matrix not invertible"
  else .ok (matSDiv (transpose4 (Matrix.of fun y x => cofactor4 m y x)) (det4 m))

/-- `PartialEq for Matrix`: the loop returns `false` as soon as some entry
difference exceeds `0.00001`, so equality holds iff no entry difference is
strictly greater than epsilon. -/
def matApproxEq (a b : Mat4) : Prop :=
  ∀ i j : Fin 4, ¬(|a i j - b i j| > EPSILON)

/-! ## Ray (`ray.rs`, `sphere.rs`) -/

structure Ray where
  origin : Tuple
  direction : Tuple

namespace Ray

/-- `Ray::position`: `origin + direction * t` -/
def position (r : Ray) (t : ℝ) : Tuple := r.origin + r.direction.smul t

/-- Modelled from the spec: `Ray::transform`, called by `Sphere::intersect`,
is absent from the sources (`ray.rs` is an earlier snapshot without it); §4.4
says rays are transformed into another coordinate space by applying a matrix
to both origin and direction (the direction, having w = 0, ignores the
translation column). -/
def transformBy (r : Ray) (m : Mat4) : Ray :=
  ⟨mulTuple m r.origin, mulTuple m r.direction⟩

end Ray

/-! ## Material and lighting (`material.rs`, `light.rs`) -/

structure Material where
  color : Color
  ambient : ℝ
  diffuse : ℝ
  specular : ℝ
  shininess : ℝ

/-- `impl Default for Material` -/
def defaultMaterial : Material := ⟨⟨1, 1, 1⟩, 0.1, 0.9, 0.9, 200⟩

structure PointLight where
  intensity : Color
  position : Tuple

/-- `material.rs::lighting`.  `f64::powf` is embedded as `Real.rpow`. -/
def lighting (material : Material) (light : PointLight) (p eyev normalv : Tuple)
    (in_shadow : Bool) : Color :=
  let effective_color := material.color.hmul light.intensity
  let lightv := (light.position - p).normalize
  let ambient := effective_color.smul material.ambient
  if in_shadow then ambient
  else
    let light_dot_normal := lightv.dot normalv
    let ds : Color × Color :=
      if light_dot_normal < 0 then (BLACK, BLACK)
      else
        let diffuse := (effective_color.smul material.diffuse).smul light_dot_normal
        let reflectv := -(lightv.reflect normalv)
        let reflect_dot_eye := reflectv.dot eyev
        let specular :=
          if reflect_dot_eye ≤ 0 then BLACK
          else
            let factor := reflect_dot_eye ^ material.shininess
            (light.intensity.smul material.specular).smul factor
        (diffuse, specular)
    ambient + ds.1 + ds.2

/-! ## Sphere (`sphere.rs`) -/

structure Sphere where
  id : ℕ
  transform : Mat4
  inv_transform : Mat4
  material : Material

/-- `Sphere::new` (the atomic id counter is passed explicitly). -/
def Sphere.mkNew (id : ℕ) : Sphere := ⟨id, identity4, identity4, defaultMaterial⟩

/-- `Sphere::set_transform`: `transform.inverse().expect(...)` — the `expect`
panics (`none`) when the matrix is not invertible. -/
def Sphere.set_transform (s : Sphere) (t : Mat4) : Option Sphere :=
  match inverse4 t with
  | .error _ => none
  | .ok inv => some { s with transform := t, inv_transform := inv }

/-- `Sphere::set_material` -/
def Sphere.set_material (s : Sphere) (m : Material) : Sphere := { s with material := m }

/-! ## Intersections (`intersection.rs`) -/

structure Intersection where
  t : ℝ
  object : Sphere

/-- Comparator used by `sort_by(|a, b| a.t.partial_cmp(&b.t).unwrap())`:
a stable ascending sort by `t`. -/
def leT (a b : Intersection) : Bool := a.t ≤ b.t

structure Intersections where
  l : List Intersection

namespace Intersections

/-- `Intersections::new` -/
def empty : Intersections := ⟨[]⟩

/-- `Intersections::push`: append, then sort the whole vector by `t`. -/
def push (xs : Intersections) (i : Intersection) : Intersections :=
  ⟨(xs.l ++ [i]).mergeSort leT⟩

/-- `Intersections::concat`: append the other collection, then sort by `t`. -/
def concat (xs ys : Intersections) : Intersections :=
  ⟨(xs.l ++ ys.l).mergeSort leT⟩

/-- `Intersections::hit`: filter `t >= 0`, then `reduce` keeping the earlier
element only when its `t` is strictly smaller. -/
def hit (xs : Intersections) : Option Intersection :=
  match xs.l.filter (fun x => 0 ≤ x.t) with
  | [] => none
  | a :: rest => some (rest.foldl (fun a b => if a.t < b.t then a else b) a)

end Intersections

/-- `Sphere::intersect`: transform the ray by the cached inverse transform,
solve the quadratic; negative discriminant yields the empty collection,
otherwise the two roots wrapped as intersections on this sphere
(`vec![i1, i2].into()` wraps without sorting). -/
def Sphere.intersect (s : Sphere) (ray : Ray) : Intersections :=
  let ray := ray.transformBy s.inv_transform
  let origin := ray.origin
  let direction := ray.direction
  let sphere_to_ray := origin - point 0 0 0
  let a := direction.dot direction
  let b := 2 * direction.dot sphere_to_ray
  let c := sphere_to_ray.dot sphere_to_ray - 1
  let discriminant := b * b - 4 * a * c
  if discriminant < 0 then Intersections.empty
  else
    let t1 := (-b - Real.sqrt discriminant) / (2 * a)
    let t2 := (-b + Real.sqrt discriminant) / (2 * a)
    ⟨[⟨t1, s⟩, ⟨t2, s⟩]⟩

/-- `prepare_computations`'s output record (`intersection.rs`). -/
structure Computations where
  object : Sphere
  t : ℝ
  point : Tuple
  eyev : Tuple
  normal : Tuple
  inside : Bool
  over_point : Tuple

/-! ## World (`world.rs`) -/

structure World where
  objects : List Sphere
  lights : List PointLight

namespace World

/-- `World::intersect`: start empty and `concat` every object's intersections. -/
def intersect (w : World) (ray : Ray) : Intersections :=
  w.objects.foldl (fun acc obj => acc.concat (obj.intersect ray)) Intersections.empty

/-- `World::shade_hit`: starting from black, add a `lighting` contribution per
light.  The call in `world.rs` passes no shadow flag (it predates the
`in_shadow` parameter of `material.rs::lighting` and computes no shadow
state), so it is embedded as `lighting` with `in_shadow := false`, which is
exactly the shadowless Phong evaluation. -/
def shade_hit (w : World) (comp : Computations) : Color :=
  w.lights.foldl
    (fun c light =>
      c + lighting comp.object.material light comp.point comp.eyev comp.normal false)
    (Color.new 0 0 0)

end World

/-- Modelled from the spec (claim C2's wording, §4.8): the per-light shadow
test — cast a ray from the over-point toward the light; the point is
shadowed iff a hit exists at `t` strictly less than the distance to the
light.  No such function exists in the sources. -/
def isShadowedClaim (w : World) (light : PointLight) (op : Tuple) : Bool :=
  let v := light.position - op
  let distance := v.magnitude
  let direction := v.normalize
  match (w.intersect ⟨op, direction⟩).hit with
  | some h => decide (h.t < distance)
  | none => false

/-- Modelled from the spec (claim C2's wording): `shade_hit` as the claim
describes it — sum `lighting` over all lights passing each light's
`is_shadowed` state computed from the over-point. -/
def shadeHitClaim (w : World) (comp : Computations) : Color :=
  w.lights.foldl
    (fun c light =>
      c + lighting comp.object.material light comp.point comp.eyev comp.normal
        (isShadowedClaim w light comp.over_point))
    (Color.new 0 0 0)

/-! ## Camera (`camera.rs`) -/

structure Camera where
  hsize : ℕ
  vsize : ℕ
  field_of_view : ℝ
  half_width : ℝ
  half_height : ℝ
  pixel_size : ℝ
  transform : Mat4
  inv_transform : Mat4

namespace Camera

/-- `Camera::new` -/
def mkNew (hsize vsize : ℕ) (field_of_view : ℝ) : Camera :=
  let half_view := Real.tan (field_of_view / 2)
  let aspect := (hsize : ℝ) / (vsize : ℝ)
  let hw_hh : ℝ × ℝ :=
    if 1 ≤ aspect then (half_view, half_view / aspect) else (half_view * aspect, half_view)
  let pixel_size := hw_hh.1 * 2 / (hsize : ℝ)
  ⟨hsize, vsize, field_of_view, hw_hh.1, hw_hh.2, pixel_size, identity4, identity4⟩

/-- `Camera::set_transform`: `inverse().expect(...)` — panics (`none`) when the
matrix is not invertible. -/
def set_transform (c : Camera) (t : Mat4) : Option Camera :=
  match inverse4 t with
  | .error _ => none
  | .ok inv => some { c with transform := t, inv_transform := inv }

/-- `Camera::ray_for_pixel`; the two `Point::try_from(..).unwrap()` calls and
the vector conversions inside `-`/`normalize` are the checked conversions. -/
def ray_for_pixel (c : Camera) (x y : ℕ) : Option Ray := do
  let xoffset := ((x : ℝ) + 0.5) * c.pixel_size
  let yoffset := ((y : ℝ) + 0.5) * c.pixel_size
  let world_x := c.half_width - xoffset
  let world_y := c.half_height - yoffset
  let pixel ← toPointChecked (mulTuple c.inv_transform (point world_x world_y (-1)))
  let origin ← toPointChecked (mulTuple c.inv_transform (point 0 0 0))
  let diff ← toVectorChecked (pixel - origin)
  let direction ← toVectorChecked diff.normalize
  return ⟨origin, direction⟩

end Camera

/-! ## Concrete values used by the example-based claims and counterexamples -/

/-- A fresh default sphere (`Sphere::new()` with id 0): identity transform,
default material. -/
def unitSphere : Sphere := Sphere.mkNew 0

/-- Two further spheres with distinct ids, used to observe tie-breaking. -/
def tieSphereA : Sphere := Sphere.mkNew 1

def tieSphereB : Sphere := Sphere.mkNew 2

/-- `transformations::translation(x, y, z)` (only the concrete matrix is
needed here). -/
def transMat (x y z : ℝ) : Mat4 :=
  Matrix.of ![![1, 0, 0, x], ![0, 1, 0, y], ![0, 0, 1, z], ![0, 0, 0, 1]]

/-- A unit sphere translated to (0, 0, -2): it blocks the path from the
origin toward a light at (0, 0, -4).  Its cached inverse transform is the
inverse translation. -/
def blockSphere : Sphere := ⟨3, transMat 0 0 (-2), transMat 0 0 2, defaultMaterial⟩

/-- A white point light at (0, 0, -4). -/
def cexLight : PointLight := ⟨⟨1, 1, 1⟩, point 0 0 (-4)⟩

/-- World with the blocking sphere and the light behind it. -/
def cexWorld : World := ⟨[blockSphere], [cexLight]⟩

/-- A prepared hit computation at the origin facing -z; its over-point is
nudged along the normal by EPSILON, as `prepare_computations` does. -/
def cexComps : Computations :=
  ⟨unitSphere, 1, point 0 0 0, vector 0 0 (-1), vector 0 0 (-1), false,
    point 0 0 (-EPSILON)⟩

/-- Claim C7 formalised: one single componentwise comparison underlies the
`PartialEq` instances of `Tuple`, `Matrix` and `Color` alike. -/
def uniformCmpClaim : Prop :=
  ∃ cmp : ℝ → ℝ → Prop,
    (∀ a b : Tuple, a.approxEq b ↔ (cmp a.x b.x ∧ cmp a.y b.y ∧ cmp a.z b.z ∧ cmp a.w b.w)) ∧
      (∀ A B : Mat4, matApproxEq A B ↔ ∀ i j, cmp (A i j) (B i j)) ∧
      (∀ c d : Color, c.approxEq d ↔ (cmp c.red d.red ∧ cmp c.green d.green ∧ cmp c.blue d.blue))

/-! ## Color is an additive monoid (used to state summing over lights) -/

lemma colorAdd_def (a b : Color) :
    a + b = ⟨a.red + b.red, a.green + b.green, a.blue + b.blue⟩ := rfl

instance : Zero Color := ⟨Color.new 0 0 0⟩

instance : AddMonoid Color where
  add_assoc a b c := by
    cases a; cases b; cases c
    simp [colorAdd_def]
    refine ⟨?_, ?_, ?_⟩ <;> ring
  zero_add a := by
    cases a
    simp [colorAdd_def]
    exact ⟨rfl, rfl, rfl⟩
  add_zero a := by
    cases a
    simp [colorAdd_def]
    exact ⟨rfl, rfl, rfl⟩
  nsmul := nsmulRec

/-! ## Basic lemmas -/

lemma EPSILON_pos : 0 < EPSILON := by norm_num [EPSILON]

lemma matApproxEq_of_eq {a b : Mat4} (h : a = b) : matApproxEq a b := by
  subst h
  intro i j
  simp [EPSILON_pos.le]

lemma Tuple.sub_def (a b : Tuple) : a - b = ⟨a.x - b.x, a.y - b.y, a.z - b.z, a.w - b.w⟩ := rfl

lemma tupleAdd_def (a b : Tuple) : a + b = ⟨a.x + b.x, a.y + b.y, a.z + b.z, a.w + b.w⟩ := rfl

lemma Tuple.neg_def (a : Tuple) : -a = ⟨0 - a.x, 0 - a.y, 0 - a.z, 0 - a.w⟩ := rfl

lemma mulTuple_identity4 (t : Tuple) : mulTuple identity4 t = t := by
  obtain ⟨x, y, z, w⟩ := t
  simp [mulTuple, identity4]

lemma sqrt_four : Real.sqrt 4 = 2 := by
  rw [show (4:ℝ) = 2 ^ 2 by norm_num, Real.sqrt_sq two_pos.le]

lemma sqrt_sixteen : Real.sqrt 16 = 4 := by
  rw [show (16:ℝ) = 4 ^ 2 by norm_num, Real.sqrt_sq (by norm_num)]

/-! ## The cofactor development agrees with Mathlib's determinant and adjugate -/

lemma matMul_eq (a b : Mat4) : matMul a b = a * b := by
  ext i j
  simp [matMul, Matrix.mul_apply]

lemma identity4_eq : identity4 = 1 := by
  ext i j
  simp [identity4, Matrix.one_apply]
  by_cases h : i = j <;> simp [h, eq_comm]

lemma det2_eq (m : Mat2) : det2 m = m.det := by
  rw [Matrix.det_fin_two]; rfl

lemma det3_eq (m : Mat3) : det3 m = m.det := by
  rw [Matrix.det_fin_three]
  simp [det3, cofactor3, minor3, det2, submatrix3, Fin.sum_univ_three]
  norm_num [show ((0:Fin 3).succAbove (0 : Fin 2)) = 1 from rfl,
    show ((0:Fin 3).succAbove (1 : Fin 2)) = 2 from rfl,
    show ((1:Fin 3).succAbove (0 : Fin 2)) = 0 from rfl,
    show ((1:Fin 3).succAbove (1 : Fin 2)) = 2 from rfl,
    show ((2:Fin 3).succAbove (0 : Fin 2)) = 0 from rfl,
    show ((2:Fin 3).succAbove (1 : Fin 2)) = 1 from rfl]
  ring

lemma submatrix4_zero (m : Mat4) (i : Fin 4) :
    submatrix4 m 0 i = m.submatrix Fin.succ i.succAbove := by
  ext a b
  simp [submatrix4, Matrix.submatrix_apply, Fin.zero_succAbove]

lemma det4_eq (m : Mat4) : det4 m = m.det := by
  rw [Matrix.det_succ_row_zero]
  unfold det4 cofactor4 minor4
  refine Finset.sum_congr rfl fun i _ => ?_
  rw [submatrix4_zero, det3_eq]
  fin_cases i <;> norm_num

lemma cofT_eq_adjugate (m : Mat4) :
    transpose4 (Matrix.of fun y x => cofactor4 m y x) = m.adjugate := by
  ext i j
  rw [Matrix.adjugate_fin_succ_eq_det_submatrix]
  show cofactor4 m j i = _
  unfold cofactor4 minor4
  rw [show submatrix4 m j i = m.submatrix j.succAbove i.succAbove from rfl, det3_eq]
  fin_cases i <;> fin_cases j <;> norm_num

lemma inverse4_eq_inv (m : Mat4) (h : det4 m ≠ 0) : inverse4 m = .ok m⁻¹ := by
  rw [inverse4, if_neg h, cofT_eq_adjugate]
  congr 1
  ext i j
  rw [Matrix.inv_def]
  simp [matSDiv, matSMul, Ring.inverse_eq_inv, det4_eq, Matrix.smul_apply]
  ring

lemma det4_zero : det4 (0 : Mat4) = 0 := by
  rw [det4_eq]
  simp

/-! ## Hit selection: the filter-and-fold analysed -/

lemma foldl_pick_spec (l : List Intersection) (a : Intersection) :
    ∃ l1 l2, a :: l = l1 ++ (l.foldl (fun a b => if a.t < b.t then a else b) a) :: l2 ∧
      (∀ x ∈ a :: l, (l.foldl (fun a b => if a.t < b.t then a else b) a).t ≤ x.t) ∧
      (∀ x ∈ l2, (l.foldl (fun a b => if a.t < b.t then a else b) a).t < x.t) := by
  induction l generalizing a with
  | nil => exact ⟨[], [], rfl, by simp, by simp⟩
  | cons b l ih =>
    rw [List.foldl_cons]
    by_cases h : a.t < b.t
    · rw [if_pos h]
      obtain ⟨l1, l2, hdec, hmin, hstrict⟩ := ih a
      rcases l1 with _ | ⟨c, l1⟩
      · obtain ⟨hra, hll2⟩ := List.cons_eq_cons.mp (by simpa using hdec)
        refine ⟨[], b :: l, by rw [← hra]; rfl, ?_, ?_⟩
        · intro x hx
          rcases List.mem_cons.mp hx with rfl | hx
          · rw [← hra]
          · rcases List.mem_cons.mp hx with rfl | hx
            · rw [← hra]; exact h.le
            · exact hmin x (List.mem_cons_of_mem _ hx)
        · intro x hx
          rcases List.mem_cons.mp hx with rfl | hx
          · rw [← hra]; exact h
          · exact hstrict x (hll2 ▸ hx)
      · obtain ⟨hca, htail⟩ := List.cons_eq_cons.mp (by simpa using hdec)
        refine ⟨a :: b :: l1, l2, by
          rw [List.cons_append, List.cons_append]
          exact congrArg (fun t => a :: b :: t) htail, ?_, hstrict⟩
        intro x hx
        rcases List.mem_cons.mp hx with rfl | hx
        · exact hmin x (List.mem_cons_self _ _)
        rcases List.mem_cons.mp hx with rfl | hx
        · exact le_trans (hmin a (List.mem_cons_self _ _)) h.le
        · exact hmin x (List.mem_cons_of_mem _ hx)
    · rw [if_neg h]
      have hba : b.t ≤ a.t := le_of_not_lt h
      obtain ⟨l1, l2, hdec, hmin, hstrict⟩ := ih b
      refine ⟨a :: l1, l2, by rw [List.cons_append, ← hdec], ?_, hstrict⟩
      intro x hx
      rcases List.mem_cons.mp hx with rfl | hx
      · exact le_trans (hmin b (List.mem_cons_self _ _)) hba
      · exact hmin x hx

lemma filter_split {α : Type} {p : α → Bool} {l la lb : List α} {x : α}
    (h : l.filter p = la ++ x :: lb) : ∃ l1 l2, l = l1 ++ x :: l2 ∧ l2.filter p = lb := by
  induction l generalizing la with
  | nil => simp at h
  | cons a l ih =>
    rw [List.filter_cons] at h
    by_cases hp : p a
    · rw [if_pos hp] at h
      rcases la with _ | ⟨c, la⟩
      · obtain ⟨rfl, hfl⟩ := List.cons_eq_cons.mp (by simpa using h)
        exact ⟨[], l, rfl, hfl⟩
      · obtain ⟨rfl, hfl⟩ := List.cons_eq_cons.mp (by simpa using h)
        obtain ⟨l1, l2, rfl, hl2⟩ := ih hfl
        exact ⟨a :: l1, l2, rfl, hl2⟩
    · rw [if_neg hp] at h
      obtain ⟨l1, l2, rfl, hl2⟩ := ih h
      exact ⟨a :: l1, l2, rfl, hl2⟩

/-! ## The sort comparator -/

lemma leT_trans : ∀ a b c : Intersection, leT a b → leT b c → leT a c := by
  intro a b c hab hbc
  simp only [leT, decide_eq_true_eq] at *
  exact le_trans hab hbc

lemma leT_total : ∀ a b : Intersection, leT a b || leT b a := by
  intro a b
  simp only [leT, Bool.or_eq_true, decide_eq_true_eq]
  exact le_total a.t b.t

lemma sorted_sortByT (l : List Intersection) :
    (l.mergeSort leT).Pairwise fun a b => a.t ≤ b.t := by
  have h := List.sorted_mergeSort leT_trans leT_total l
  exact h.imp (by intro a b hab; simpa [leT] using hab)

/-! ## Case analyses of `Sphere::intersect` and `lighting` -/

lemma intersect_split (s : Sphere) (r : Ray) :
    let r' := r.transformBy s.inv_transform
    let str := r'.origin - point 0 0 0
    let a := r'.direction.dot r'.direction
    let b := 2 * r'.direction.dot str
    let c := str.dot str - 1
    let disc := b * b - 4 * a * c
    (disc < 0 → s.intersect r = Intersections.empty) ∧
      (0 ≤ disc →
        s.intersect r =
          ⟨[⟨(-b - Real.sqrt disc) / (2 * a), s⟩, ⟨(-b + Real.sqrt disc) / (2 * a), s⟩]⟩ ∧
        (-b - Real.sqrt disc) / (2 * a) ≤ (-b + Real.sqrt disc) / (2 * a)) := by
  intro r' str a b c disc
  have ha : 0 ≤ a := by
    have hav : a = r'.direction.dot r'.direction := rfl
    rw [hav, Tuple.dot]
    nlinarith [sq_nonneg r'.direction.x, sq_nonneg r'.direction.y,
      sq_nonneg r'.direction.z, sq_nonneg r'.direction.w]
  constructor
  · intro hneg
    rw [Sphere.intersect, if_pos hneg]
  · intro hpos
    refine ⟨by rw [Sphere.intersect, if_neg (not_lt.mpr hpos)], ?_⟩
    rcases eq_or_lt_of_le ha with haz | hap
    · rw [← haz]
      norm_num
    · apply div_le_div_of_nonneg_right ?_ (by linarith)
      have := Real.sqrt_nonneg disc
      linarith

lemma lighting_split (m : Material) (light : PointLight) (p eyev normalv : Tuple) :
    let effective_color := m.color.hmul light.intensity
    let lightv := (light.position - p).normalize
    let ambient := effective_color.smul m.ambient
    let ldn := lightv.dot normalv
    let reflectv := -(lightv.reflect normalv)
    let rde := reflectv.dot eyev
    let spec := if rde ≤ 0 then BLACK
      else (light.intensity.smul m.specular).smul (rde ^ m.shininess)
    (lighting m light p eyev normalv true = ambient) ∧
      (ldn < 0 → lighting m light p eyev normalv false = ambient + BLACK + BLACK) ∧
      (0 ≤ ldn → lighting m light p eyev normalv false =
        ambient + (effective_color.smul m.diffuse).smul ldn + spec) := by
  intro effective_color lightv ambient ldn reflectv rde spec
  refine ⟨?_, ?_, ?_⟩
  · rw [lighting]
    simp only [if_true]
  · intro hneg
    rw [lighting]
    simp only [Bool.false_eq_true, if_false, if_pos hneg]
  · intro hpos
    rw [lighting]
    simp only [Bool.false_eq_true, if_false, if_neg (not_lt.mpr hpos)]

/-! ## Camera geometry -/

lemma camera_mkNew_rel (hs vs : ℕ) (fov : ℝ) (h0 : 0 < hs) (v0 : 0 < vs) :
    (Camera.mkNew hs vs fov).half_height * (hs : ℝ) =
      (Camera.mkNew hs vs fov).half_width * (vs : ℝ) := by
  have hh : ((hs : ℝ)) ≠ 0 := Nat.cast_ne_zero.mpr h0.ne'
  have hv : ((vs : ℝ)) ≠ 0 := Nat.cast_ne_zero.mpr v0.ne'
  simp only [Camera.mkNew]
  by_cases hasp : (1 : ℝ) ≤ (hs : ℝ) / (vs : ℝ)
  · rw [if_pos hasp]
    field_simp
  · rw [if_neg hasp]
    field_simp

/-! ## Folding color additions over the lights -/

lemma foldl_add_color (f : PointLight → Color) (l : List PointLight) (init : Color) :
    l.foldl (fun c x => c + f x) init = init + (l.map f).sum := by
  induction l generalizing init with
  | nil => simp
  | cons a l ih =>
    rw [List.foldl_cons, ih, List.map_cons, List.sum_cons, add_assoc]

/-! ## Evaluation of the shadow counterexample scene -/

lemma cex_intersect : blockSphere.intersect ⟨point 0 0 (-EPSILON), Tuple.mk 0 0 (-1) 0⟩ =
    ⟨[⟨1 - EPSILON, blockSphere⟩, ⟨3 - EPSILON, blockSphere⟩]⟩ := by
  have h := (intersect_split blockSphere ⟨point 0 0 (-EPSILON), Tuple.mk 0 0 (-1) 0⟩).2
  simp only [show blockSphere.inv_transform = transMat 0 0 2 from rfl, Ray.transformBy,
    transMat, mulTuple, Matrix.of_apply, point, Tuple.dot, Tuple.sub_def] at h
  norm_num [EPSILON] at h
  rw [sqrt_four] at h
  norm_num at h
  norm_num [EPSILON]
  exact h

lemma cex_shadowed : isShadowedClaim cexWorld cexLight (point 0 0 (-EPSILON)) = true := by
  rw [isShadowedClaim]
  have hv : cexLight.position - point 0 0 (-EPSILON) = Tuple.mk 0 0 (EPSILON - 4) 0 := by
    show point 0 0 (-4) - _ = _
    rw [point, point, Tuple.sub_def]
    norm_num
    ring
  have hmag : (Tuple.mk 0 0 (EPSILON - 4) 0).magnitude = 4 - EPSILON := by
    rw [Tuple.magnitude]
    rw [show (0:ℝ) ^ 2 + 0 ^ 2 + (EPSILON - 4) ^ 2 + 0 ^ 2 = (4 - EPSILON) ^ 2 by ring]
    exact Real.sqrt_sq (by norm_num [EPSILON])
  have hnorm : (Tuple.mk 0 0 (EPSILON - 4) 0).normalize = Tuple.mk 0 0 (-1) 0 := by
    rw [Tuple.normalize, hmag, Tuple.sdiv]
    norm_num
    rw [div_eq_iff (by norm_num [EPSILON] : (4:ℝ) - EPSILON ≠ 0)]
    ring
  rw [hv, hmag, hnorm]
  have hWint : cexWorld.intersect ⟨point 0 0 (-EPSILON), Tuple.mk 0 0 (-1) 0⟩ =
      ⟨[⟨1 - EPSILON, blockSphere⟩, ⟨3 - EPSILON, blockSphere⟩]⟩ := by
    rw [World.intersect]
    show Intersections.empty.concat
      (blockSphere.intersect ⟨point 0 0 (-EPSILON), Tuple.mk 0 0 (-1) 0⟩) = _
    rw [cex_intersect, Intersections.concat]
    rw [show Intersections.empty.l ++ [(⟨1 - EPSILON, blockSphere⟩ : Intersection),
      ⟨3 - EPSILON, blockSphere⟩] = [⟨1 - EPSILON, blockSphere⟩, ⟨3 - EPSILON, blockSphere⟩]
      from rfl]
    rw [List.mergeSort_of_sorted]
    refine List.Pairwise.cons ?_ (List.pairwise_singleton _ _)
    intro x hx
    rw [List.mem_singleton.mp hx]
    show leT _ _ = true
    simp only [leT, decide_eq_true_eq]
    norm_num
  rw [hWint]
  have hhit : Intersections.hit ⟨[⟨1 - EPSILON, blockSphere⟩, ⟨3 - EPSILON, blockSphere⟩]⟩ =
      some ⟨1 - EPSILON, blockSphere⟩ := by
    rw [Intersections.hit]
    norm_num [List.filter_cons, List.foldl, EPSILON]
  rw [hhit]
  simp only [decide_eq_true_eq]
  norm_num [EPSILON]

lemma cex_shade_hit : World.shade_hit cexWorld cexComps = ⟨1.9, 1.9, 1.9⟩ := by
  rw [World.shade_hit]
  show Color.new 0 0 0 + lighting defaultMaterial cexLight (point 0 0 0)
    (vector 0 0 (-1)) (vector 0 0 (-1)) false = _
  have h := (lighting_split defaultMaterial cexLight (point 0 0 0)
    (vector 0 0 (-1)) (vector 0 0 (-1))).2.2
  have hlv : (cexLight.position - point 0 0 0).normalize = Tuple.mk 0 0 (-1) 0 := by
    show (point 0 0 (-4) - point 0 0 0).normalize = _
    rw [point, point, Tuple.sub_def, Tuple.normalize, Tuple.magnitude]
    norm_num [sqrt_sixteen, Tuple.sdiv]
  rw [hlv] at h
  rw [h (by norm_num [Tuple.dot, vector])]
  rw [Tuple.reflect, Tuple.dot]
  norm_num [vector, Tuple.smul, Tuple.sub_def, Tuple.neg_def, Tuple.dot]
  norm_num [Color.hmul, Color.smul, colorAdd_def, Color.new, defaultMaterial, cexLight]

lemma cex_shadeHitClaim : shadeHitClaim cexWorld cexComps = ⟨0.1, 0.1, 0.1⟩ := by
  rw [shadeHitClaim]
  show Color.new 0 0 0 + lighting defaultMaterial cexLight (point 0 0 0)
    (vector 0 0 (-1)) (vector 0 0 (-1))
    (isShadowedClaim cexWorld cexLight (point 0 0 (-EPSILON))) = _
  rw [cex_shadowed]
  have h := (lighting_split defaultMaterial cexLight (point 0 0 0)
    (vector 0 0 (-1)) (vector 0 0 (-1))).1
  rw [h]
  norm_num [Color.hmul, Color.smul, colorAdd_def, Color.new, defaultMaterial, cexLight]

/-! ## Claims -/

/-- C1 (counterexample): configuring a non-invertible transform (the zero
matrix) on a Sphere or a Camera does NOT produce a recoverable failure — the
`expect` inside `set_transform` panics (embedded as `none`), refuting the
claim that such a configuration is "never a panic". -/
theorem c1_nonInvertible_set_transform_panics :
    unitSphere.set_transform 0 = none ∧ (Camera.mkNew 11 11 0).set_transform 0 = none := by
  rw [Sphere.set_transform, Camera.set_transform, inverse4, if_pos det4_zero]
  exact ⟨rfl, rfl⟩

/-- C1 (amended): `SquareMatrix::inverse` does report non-invertibility as the
typed error `Err("matrix not invertible")`, but `Sphere::set_transform` and
`Camera::set_transform` unwrap that result with `expect`, so configuring a
non-invertible matrix panics at the point of configuration exactly when the
determinant is zero, and succeeds with the cached inverse otherwise. -/
theorem c1_amended_set_transform_panic_iff (s : Sphere) (c : Camera) (m : Mat4) :
    (s.set_transform m = none ↔ det4 m = 0) ∧
      (c.set_transform m = none ↔ det4 m = 0) ∧
      (det4 m = 0 → inverse4 m = .error "matrix not invertible") ∧
      (det4 m ≠ 0 → ∃ inv, inverse4 m = .ok inv ∧
        s.set_transform m = some { s with transform := m, inv_transform := inv } ∧
        c.set_transform m = some { c with transform := m, inv_transform := inv }) := by
  by_cases h : det4 m = 0
  · have he : inverse4 m = .error "matrix not invertible" := by rw [inverse4, if_pos h]
    refine ⟨?_, ?_, fun _ => he, fun hn => absurd h hn⟩
    · rw [Sphere.set_transform, he]
      exact iff_of_true rfl h
    · rw [Camera.set_transform, he]
      exact iff_of_true rfl h
  · have hok := inverse4_eq_inv m h
    refine ⟨?_, ?_, fun h0 => absurd h0 h, fun _ => ⟨m⁻¹, hok, ?_, ?_⟩⟩
    · rw [Sphere.set_transform, hok]
      exact iff_of_false (fun hc => Option.noConfusion hc) h
    · rw [Camera.set_transform, hok]
      exact iff_of_false (fun hc => Option.noConfusion hc) h
    · rw [Sphere.set_transform, hok]
    · rw [Camera.set_transform, hok]

/-- C1 (witness): the amended theorem applied at the zero matrix (determinant
zero: panic and typed error) and at the identity matrix (invertible:
successful configuration). -/
theorem c1_amended_witness :
    (inverse4 (0 : Mat4) = .error "matrix not invertible") ∧
      ∃ inv, inverse4 identity4 = .ok inv ∧
        unitSphere.set_transform identity4 =
          some { unitSphere with transform := identity4, inv_transform := inv } ∧
        (Camera.mkNew 11 11 0).set_transform identity4 =
          some { Camera.mkNew 11 11 0 with transform := identity4, inv_transform := inv } :=
  ⟨(c1_amended_set_transform_panic_iff unitSphere (Camera.mkNew 11 11 0) 0).2.2.1 det4_zero,
    (c1_amended_set_transform_panic_iff unitSphere (Camera.mkNew 11 11 0) identity4).2.2.2
      (by rw [det4_eq, identity4_eq]; simp)⟩

/-- C2 (counterexample): `World::shade_hit` does not pass any shadow state to
`lighting` — on a world whose only sphere blocks the path from the hit's
over-point to the light, the code returns the full Phong color (1.9, 1.9,
1.9), while the claimed formula (shadow ray from the over-point, hit at t
strictly below the light distance suppresses diffuse and specular) yields
the ambient-only color (0.1, 0.1, 0.1). -/
theorem c2_shade_hit_ignores_shadows :
    World.shade_hit cexWorld cexComps ≠ shadeHitClaim cexWorld cexComps := by
  rw [cex_shade_hit, cex_shadeHitClaim]
  intro h
  have hr := congrArg Color.red h
  norm_num at hr

/-- C2 (amended): `World::shade_hit` returns the sum over all the world's
lights of `lighting(material, light, point, eyev, normal)` evaluated without
any shadow state (`in_shadow = false`); no shadow test is performed. -/
theorem c2_amended_shade_hit_unshadowed_sum (w : World) (comp : Computations) :
    World.shade_hit w comp =
      (w.lights.map fun light =>
        lighting comp.object.material light comp.point comp.eyev comp.normal false).sum := by
  rw [World.shade_hit, foldl_add_color]
  exact zero_add _

/-- C3: `hit()` returns `none` exactly when no intersection has non-negative
t, and any returned intersection is a member of the collection with minimal
non-negative t. -/
theorem c3_hit_minimal_nonneg (xs : Intersections) :
    (xs.hit = none ↔ ∀ i ∈ xs.l, i.t < 0) ∧
      (∀ h, xs.hit = some h →
        h ∈ xs.l ∧ 0 ≤ h.t ∧ ∀ i ∈ xs.l, 0 ≤ i.t → h.t ≤ i.t) := by
  constructor
  · rw [Intersections.hit]
    rcases hf : xs.l.filter (fun x => 0 ≤ x.t) with _ | ⟨a, rest⟩
    · rw [hf]
      simp only [true_iff]
      intro i hi
      by_contra hlt
      have : i ∈ xs.l.filter (fun x => 0 ≤ x.t) :=
        List.mem_filter.mpr ⟨hi, by simpa using le_of_not_lt hlt⟩
      simp [hf] at this
    · rw [hf]
      simp only [reduceCtorEq, false_iff]
      intro hall
      have ha : a ∈ xs.l.filter (fun x => 0 ≤ x.t) := by
        rw [hf]; exact List.mem_cons_self _ _
      have h0 : 0 ≤ a.t := by simpa using (List.mem_filter.mp ha).2
      exact absurd (hall a (List.mem_filter.mp ha).1) (not_lt.mpr h0)
  · intro h hh
    rw [Intersections.hit] at hh
    rcases hf : xs.l.filter (fun x => 0 ≤ x.t) with _ | ⟨a, rest⟩
    · rw [hf] at hh
      exact absurd hh (by simp)
    · rw [hf] at hh
      have hsome := Option.some_injective _ hh
      obtain ⟨l1, l2, hdec, hmin, -⟩ := foldl_pick_spec rest a
      rw [hsome] at hdec hmin
      have hmemf : h ∈ xs.l.filter (fun x => 0 ≤ x.t) := by
        rw [hf, hdec]
        exact List.mem_append_right _ (List.mem_cons_self _ _)
      refine ⟨(List.mem_filter.mp hmemf).1, by simpa using (List.mem_filter.mp hmemf).2, ?_⟩
      intro i hi h0
      have : i ∈ xs.l.filter (fun x => 0 ≤ x.t) := List.mem_filter.mpr ⟨hi, by simpa using h0⟩
      rw [hf] at this
      exact hmin i this

/-- C3 (witness): on the collection with t values {5, 7, -3, 2} the hit is
the intersection at t = 2, and (by the theorem) it is a member with minimal
non-negative t. -/
theorem c3_witness :
    Intersections.hit ⟨[⟨5, unitSphere⟩, ⟨7, unitSphere⟩, ⟨-3, unitSphere⟩, ⟨2, unitSphere⟩]⟩ =
      some ⟨2, unitSphere⟩ ∧
      ((⟨2, unitSphere⟩ : Intersection) ∈
          [(⟨5, unitSphere⟩ : Intersection), ⟨7, unitSphere⟩, ⟨-3, unitSphere⟩, ⟨2, unitSphere⟩] ∧
        (0:ℝ) ≤ 2 ∧
        ∀ i ∈ [(⟨5, unitSphere⟩ : Intersection), ⟨7, unitSphere⟩, ⟨-3, unitSphere⟩,
          ⟨2, unitSphere⟩], 0 ≤ i.t → (2:ℝ) ≤ i.t) := by
  have he : Intersections.hit
      ⟨[⟨5, unitSphere⟩, ⟨7, unitSphere⟩, ⟨-3, unitSphere⟩, ⟨2, unitSphere⟩]⟩ =
      some ⟨2, unitSphere⟩ := by
    rw [Intersections.hit]
    norm_num [List.filter_cons, List.foldl]
  exact ⟨he, (c3_hit_minimal_nonneg
    ⟨[⟨5, unitSphere⟩, ⟨7, unitSphere⟩, ⟨-3, unitSphere⟩, ⟨2, unitSphere⟩]⟩).2 _ he⟩

/-- C4: `Sphere::intersect` first transforms the ray by the cached inverse
transform; a negative discriminant yields the empty collection (not an
error), otherwise exactly the two quadratic roots (−b ∓ √disc)/(2a), in that
order with t1 ≤ t2, both referencing this sphere. -/
theorem c4_intersect_quadratic (s : Sphere) (r : Ray) :
    let r' := r.transformBy s.inv_transform
    let str := r'.origin - point 0 0 0
    let a := r'.direction.dot r'.direction
    let b := 2 * r'.direction.dot str
    let c := str.dot str - 1
    let disc := b * b - 4 * a * c
    (disc < 0 → s.intersect r = Intersections.empty) ∧
      (0 ≤ disc →
        s.intersect r =
          ⟨[⟨(-b - Real.sqrt disc) / (2 * a), s⟩, ⟨(-b + Real.sqrt disc) / (2 * a), s⟩]⟩ ∧
        (-b - Real.sqrt disc) / (2 * a) ≤ (-b + Real.sqrt disc) / (2 * a)) :=
  intersect_split s r

/-- C4 (witness): the theorem applied to the ray from (0, 0, -5) with
direction (0, 0, 1) against the untransformed unit sphere: the discriminant
evaluates to 4 and the roots to t = 4.0 then t = 6.0. -/
theorem c4_witness :
    unitSphere.intersect ⟨point 0 0 (-5), vector 0 0 1⟩ =
      ⟨[⟨4, unitSphere⟩, ⟨6, unitSphere⟩]⟩ := by
  have h := (c4_intersect_quadratic unitSphere ⟨point 0 0 (-5), vector 0 0 1⟩).2
  simp only [show unitSphere.inv_transform = identity4 from rfl, Ray.transformBy,
    mulTuple_identity4, point, vector, Tuple.dot, Tuple.sub_def] at h
  norm_num at h
  rw [sqrt_four] at h
  norm_num at h
  exact h

/-- C5: for every 4x4 matrix with nonzero determinant, `inverse` succeeds,
`M * M.inverse()` is (epsilon-tolerantly) the identity, and inverting the
inverse gives back `M`. -/
theorem c5_inverse_involutive (M : Mat4) (h : det4 M ≠ 0) :
    ∃ N P, inverse4 M = .ok N ∧ matApproxEq (matMul M N) identity4 ∧
      inverse4 N = .ok P ∧ matApproxEq P M := by
  have hdet : M.det ≠ 0 := by rwa [← det4_eq]
  have hu : IsUnit M.det := isUnit_iff_ne_zero.mpr hdet
  have hdetInv : det4 M⁻¹ ≠ 0 := by
    rw [det4_eq, Matrix.det_nonsing_inv, Ring.inverse_eq_inv]
    exact inv_ne_zero hdet
  refine ⟨M⁻¹, M, inverse4_eq_inv M h, ?_, ?_, matApproxEq_of_eq rfl⟩
  · apply matApproxEq_of_eq
    rw [matMul_eq, Matrix.mul_nonsing_inv _ hu, identity4_eq]
  · rw [inverse4_eq_inv _ hdetInv, Matrix.nonsing_inv_nonsing_inv _ hu]

/-- C5 (witness): the theorem applied to the concrete invertible matrix
2·I (determinant 16). -/
theorem c5_witness :
    ∃ N P, inverse4 ((2:ℝ) • (1 : Mat4)) = .ok N ∧
      matApproxEq (matMul ((2:ℝ) • (1 : Mat4)) N) identity4 ∧
      inverse4 N = .ok P ∧ matApproxEq P ((2:ℝ) • (1 : Mat4)) :=
  c5_inverse_involutive _ (by rw [det4_eq]; simp [Matrix.det_smul])

/-- C6: the collections produced by `push` and by `concat` are always in
nondecreasing order of t (both re-sort the whole vector). -/
theorem c6_push_concat_sorted (xs ys : Intersections) (i : Intersection) :
    ((xs.push i).l.Pairwise fun a b => a.t ≤ b.t) ∧
      ((xs.concat ys).l.Pairwise fun a b => a.t ≤ b.t) :=
  ⟨sorted_sortByT _, sorted_sortByT _⟩

/-- C7 (counterexample): no single componentwise epsilon comparison underlies
all three `PartialEq` instances — `Tuple` (and `Color`) compare with strict
`< EPSILON` while `Matrix` accepts a difference of exactly EPSILON (its loop
rejects only `> EPSILON`), so constant values differing by exactly EPSILON
are equal as matrices but unequal as tuples. -/
theorem c7_no_uniform_epsilon_comparison : ¬uniformCmpClaim := by
  rintro ⟨cmp, htup, hmat, -⟩
  have h1 : ∀ a b : ℝ, cmp a b ↔ |a - b| < EPSILON := by
    intro a b
    have h := htup ⟨a, a, a, a⟩ ⟨b, b, b, b⟩
    exact ⟨fun hc => (h.mpr ⟨hc, hc, hc, hc⟩).1, fun hlt => (h.mp ⟨hlt, hlt, hlt, hlt⟩).1⟩
  have h2 : ∀ a b : ℝ, cmp a b ↔ |a - b| ≤ EPSILON := by
    intro a b
    have h := hmat (Matrix.of fun _ _ => a) (Matrix.of fun _ _ => b)
    constructor
    · intro hc
      have hm := (h.mpr fun _ _ => hc) 0 0
      simpa using not_lt.mp hm
    · intro hle
      have hm : matApproxEq (Matrix.of fun _ _ => a) (Matrix.of fun _ _ => b) := fun i j => by
        simpa using not_lt.mpr hle
      exact h.mp hm 0 0
  have hc : cmp EPSILON 0 := (h2 _ _).mpr (by rw [sub_zero, abs_of_pos EPSILON_pos])
  have hlt := (h1 _ _).mp hc
  rw [sub_zero, abs_of_pos EPSILON_pos] at hlt
  exact lt_irrefl _ hlt

/-- C7 (amended): all three equality comparisons are componentwise with the
same fixed EPSILON = 1e-5, but Tuple and Color use the strict bound
`|Δ| < EPSILON` while Matrix uses the non-strict `|Δ| ≤ EPSILON`; at a
componentwise difference of exactly EPSILON the matrix comparison accepts
and the tuple comparison rejects. -/
theorem c7_amended_componentwise_epsilon :
    (∀ a b : Tuple, a.approxEq b ↔
      (|a.x - b.x| < EPSILON ∧ |a.y - b.y| < EPSILON ∧
        |a.z - b.z| < EPSILON ∧ |a.w - b.w| < EPSILON)) ∧
      (∀ A B : Mat4, matApproxEq A B ↔ ∀ i j, |A i j - B i j| ≤ EPSILON) ∧
      (∀ c d : Color, c.approxEq d ↔
        (|c.red - d.red| < EPSILON ∧ |c.green - d.green| < EPSILON ∧
          |c.blue - d.blue| < EPSILON)) ∧
      matApproxEq (Matrix.of fun _ _ => EPSILON) 0 ∧
      ¬(Tuple.mk EPSILON EPSILON EPSILON EPSILON).approxEq ⟨0, 0, 0, 0⟩ := by
  refine ⟨fun a b => Iff.rfl, ?_, fun c d => Iff.rfl, ?_, ?_⟩
  · intro A B
    constructor
    · intro h i j
      exact not_lt.mp (h i j)
    · intro h i j
      exact not_lt.mpr (h i j)
  · intro i j
    simp [Matrix.of_apply, EPSILON_pos.le, abs_of_pos EPSILON_pos]
  · intro h
    have hx := h.1
    rw [sub_zero, abs_of_pos EPSILON_pos] at hx
    exact lt_irrefl _ hx

/-- C7 (witness): the amended characterisations applied at concrete values:
two equal tuples are approximately equal, and two matrices differing by
exactly EPSILON in one entry are approximately equal. -/
theorem c7_amended_witness :
    (Tuple.mk 0 0 0 0).approxEq ⟨0, 0, 0, 0⟩ ∧
      matApproxEq (Matrix.of fun _ _ => EPSILON) 0 :=
  ⟨(c7_amended_componentwise_epsilon.1 ⟨0, 0, 0, 0⟩ ⟨0, 0, 0, 0⟩).mpr
      (by norm_num [EPSILON]),
    c7_amended_componentwise_epsilon.2.2.2.1⟩

/-- C8: `lighting` returns exactly the ambient term when `in_shadow` is set;
otherwise, when the light is behind the surface (`light_dot_normal < 0`)
both diffuse and specular are black, and when it is not, the diffuse term is
`effective_color * material.diffuse * light_dot_normal` (with the code's
specular term added). -/
theorem c8_lighting_cases (m : Material) (light : PointLight) (p eyev normalv : Tuple) :
    let effective_color := m.color.hmul light.intensity
    let lightv := (light.position - p).normalize
    let ambient := effective_color.smul m.ambient
    let ldn := lightv.dot normalv
    let reflectv := -(lightv.reflect normalv)
    let rde := reflectv.dot eyev
    let spec := if rde ≤ 0 then BLACK
      else (light.intensity.smul m.specular).smul (rde ^ m.shininess)
    (lighting m light p eyev normalv true = ambient) ∧
      (ldn < 0 → lighting m light p eyev normalv false = ambient + BLACK + BLACK) ∧
      (0 ≤ ldn → lighting m light p eyev normalv false =
        ambient + (effective_color.smul m.diffuse).smul ldn + spec) :=
  lighting_split m light p eyev normalv

/-- C8 (witness): the theorem applied with the default material, a white
light at (0, 0, -1), the point at the origin and eye/normal along -z: in
shadow the result is the ambient color (0.1, 0.1, 0.1); unshadowed it is the
full Phong value (1.9, 1.9, 1.9). -/
theorem c8_witness :
    lighting defaultMaterial ⟨⟨1, 1, 1⟩, point 0 0 (-1)⟩ (point 0 0 0)
        (vector 0 0 (-1)) (vector 0 0 (-1)) true = ⟨0.1, 0.1, 0.1⟩ ∧
      lighting defaultMaterial ⟨⟨1, 1, 1⟩, point 0 0 (-1)⟩ (point 0 0 0)
        (vector 0 0 (-1)) (vector 0 0 (-1)) false = ⟨1.9, 1.9, 1.9⟩ := by
  have h := c8_lighting_cases defaultMaterial ⟨⟨1, 1, 1⟩, point 0 0 (-1)⟩ (point 0 0 0)
    (vector 0 0 (-1)) (vector 0 0 (-1))
  have hlv : ((⟨⟨1, 1, 1⟩, point 0 0 (-1)⟩ : PointLight).position - point 0 0 0).normalize =
      Tuple.mk 0 0 (-1) 0 := by
    show (point 0 0 (-1) - point 0 0 0).normalize = _
    rw [point, point, Tuple.sub_def]
    norm_num
    rw [Tuple.normalize, Tuple.magnitude]
    norm_num [Tuple.sdiv]
  rw [hlv] at h
  obtain ⟨ha, -, hc⟩ := h
  constructor
  · rw [ha]
    norm_num [Color.hmul, Color.smul, defaultMaterial]
  · rw [hc (by norm_num [Tuple.dot, vector])]
    rw [Tuple.reflect, Tuple.dot]
    norm_num [vector, Tuple.smul, Tuple.sub_def, Tuple.neg_def, Tuple.dot]
    norm_num [Color.hmul, Color.smul, colorAdd_def, defaultMaterial]

/-- C9: for every odd-sized canvas and any field of view, the camera with the
default (identity) view transform maps the exact center pixel to the ray
from the origin pointing along (0, 0, -1) (the canvas sits at z = -1 in
camera space and the direction is normalize(pixel − origin)). -/
theorem c9_center_pixel_ray (hs vs : ℕ) (fov : ℝ) (hodd : Odd hs) (vodd : Odd vs)
    (h0 : 0 < hs) (v0 : 0 < vs) :
    (Camera.mkNew hs vs fov).ray_for_pixel ((hs - 1) / 2) ((vs - 1) / 2) =
      some ⟨point 0 0 0, vector 0 0 (-1)⟩ := by
  have hhne : ((hs : ℝ)) ≠ 0 := Nat.cast_ne_zero.mpr h0.ne'
  have hvne : ((vs : ℝ)) ≠ 0 := Nat.cast_ne_zero.mpr v0.ne'
  obtain ⟨k, hk⟩ := hodd
  obtain ⟨k', hk'⟩ := vodd
  have hkcast : (((hs - 1) / 2 : ℕ) : ℝ) = (k : ℝ) := by
    subst hk
    norm_num [Nat.add_sub_cancel]
  have hkcast' : (((vs - 1) / 2 : ℕ) : ℝ) = (k' : ℝ) := by
    subst hk'
    norm_num [Nat.add_sub_cancel]
  have hcasth : ((hs : ℝ)) = 2 * (k : ℝ) + 1 := by
    subst hk
    push_cast
    ring
  have hcastv : ((vs : ℝ)) = 2 * (k' : ℝ) + 1 := by
    subst hk'
    push_cast
    ring
  have hps : (Camera.mkNew hs vs fov).pixel_size =
      (Camera.mkNew hs vs fov).half_width * 2 / (hs : ℝ) := rfl
  have hx : (Camera.mkNew hs vs fov).half_width -
      ((((hs - 1) / 2 : ℕ) : ℝ) + 0.5) * (Camera.mkNew hs vs fov).pixel_size = 0 := by
    rw [hps, hkcast, hcasth]
    have h2k : (2 * (k : ℝ) + 1) ≠ 0 := by positivity
    field_simp
    ring
  have hy : (Camera.mkNew hs vs fov).half_height -
      ((((vs - 1) / 2 : ℕ) : ℝ) + 0.5) * (Camera.mkNew hs vs fov).pixel_size = 0 := by
    have hrel := camera_mkNew_rel hs vs fov h0 v0
    rw [hps, hkcast', hcastv] at *
    have h2k : (2 * (k : ℝ) + 1) ≠ 0 := by positivity
    rw [hcasth] at hrel ⊢
    field_simp at hrel ⊢
    linarith [hrel]
  rw [Camera.ray_for_pixel]
  rw [hx, hy]
  rw [show (Camera.mkNew hs vs fov).inv_transform = identity4 from rfl]
  rw [mulTuple_identity4, mulTuple_identity4]
  norm_num [toPointChecked, toVectorChecked, point, vector, Tuple.sub_def, Tuple.normalize,
    Tuple.magnitude, Tuple.sdiv, EPSILON]

/-- C9 (witness): the theorem applied to a 3×3 canvas with field of view 0:
the center pixel (1, 1) gets the ray from the origin along (0, 0, -1). -/
theorem c9_witness :
    (Camera.mkNew 3 3 0).ray_for_pixel 1 1 = some ⟨point 0 0 0, vector 0 0 (-1)⟩ :=
  c9_center_pixel_ray 3 3 0 ⟨1, by norm_num⟩ ⟨1, by norm_num⟩ (by norm_num) (by norm_num)

/-- C10: when the minimal non-negative t is attained more than once, `hit`
returns the LAST of the tied intersections in the collection's element
order: the returned element decomposes the list so that every element after
it with non-negative t has strictly greater t (the fold keeps the later
element whenever the earlier one's t is not strictly smaller). -/
theorem c10_hit_tie_returns_last (xs : Intersections) (hne : ∃ i ∈ xs.l, 0 ≤ i.t) :
    ∃ r l1 l2, xs.hit = some r ∧ 0 ≤ r.t ∧ xs.l = l1 ++ r :: l2 ∧
      (∀ x ∈ xs.l, 0 ≤ x.t → r.t ≤ x.t) ∧
      (∀ x ∈ l2, 0 ≤ x.t → r.t < x.t) := by
  obtain ⟨i, hi, h0⟩ := hne
  have hmemf : i ∈ xs.l.filter (fun x => 0 ≤ x.t) := List.mem_filter.mpr ⟨hi, by simpa using h0⟩
  rcases hf : xs.l.filter (fun x => 0 ≤ x.t) with _ | ⟨a, rest⟩
  · rw [hf] at hmemf
    simp at hmemf
  · obtain ⟨l1f, l2f, hdec, hmin, hstrict⟩ := foldl_pick_spec rest a
    set r := rest.foldl (fun a b => if a.t < b.t then a else b) a with hr
    have hhit : xs.hit = some r := by rw [Intersections.hit, hf]
    have hrf : r ∈ xs.l.filter (fun x => 0 ≤ x.t) := by
      rw [hf, hdec]
      exact List.mem_append_right _ (List.mem_cons_self _ _)
    obtain ⟨l1, l2, hxs, hfl2⟩ := filter_split (hf.trans hdec)
    refine ⟨r, l1, l2, hhit, by simpa using (List.mem_filter.mp hrf).2, hxs, ?_, ?_⟩
    · intro x hx hx0
      have : x ∈ xs.l.filter (fun y => 0 ≤ y.t) := List.mem_filter.mpr ⟨hx, by simpa using hx0⟩
      rw [hf] at this
      exact hmin x this
    · intro x hx hx0
      have : x ∈ l2.filter (fun y => 0 ≤ y.t) := List.mem_filter.mpr ⟨hx, by simpa using hx0⟩
      rw [hfl2] at this
      exact hstrict x this

/-- C10 (witness): the theorem applied to a collection with a negative entry
and two intersections tied at the minimal non-negative t = 2 on distinct
spheres; the decomposition pins the returned hit to the later tied entry. -/
theorem c10_witness :
    (∃ i ∈ (Intersections.mk [⟨-1, unitSphere⟩, ⟨2, tieSphereA⟩, ⟨2, tieSphereB⟩]).l,
      0 ≤ i.t) ∧
      ∃ r l1 l2,
        (Intersections.mk [⟨-1, unitSphere⟩, ⟨2, tieSphereA⟩, ⟨2, tieSphereB⟩]).hit = some r ∧
        0 ≤ r.t ∧
        (Intersections.mk [⟨-1, unitSphere⟩, ⟨2, tieSphereA⟩, ⟨2, tieSphereB⟩]).l =
          l1 ++ r :: l2 ∧
        (∀ x ∈ (Intersections.mk [⟨-1, unitSphere⟩, ⟨2, tieSphereA⟩, ⟨2, tieSphereB⟩]).l,
          0 ≤ x.t → r.t ≤ x.t) ∧
        (∀ x ∈ l2, 0 ≤ x.t → r.t < x.t) :=
  have hne : ∃ i ∈ (Intersections.mk
      [⟨-1, unitSphere⟩, ⟨2, tieSphereA⟩, ⟨2, tieSphereB⟩]).l, 0 ≤ i.t :=
    ⟨⟨2, tieSphereA⟩, by simp, by norm_num⟩
  ⟨hne, c10_hit_tie_returns_last _ hne⟩
